import Mathlib

/-!
# Gas-gauge flash dump tool (`main.c`): embedding and verified properties

The C program talks to a battery gas gauge over SMBus.  The embedding keeps the
bus as an explicit value that is threaded through every function:

* `Bus.reads` is the answer the transport will give to each successive block
  read (an arbitrary function, so every transport behaviour is covered);
* `Bus.nread` counts the block reads issued so far;
* `Bus.trace` records every transaction in the order it was issued.

`perror(...); exit(1);` is the constructor `Run.exited`: the process stops there
and nothing after it runs.

Reading notes for `main.c`, which is not compilable as it stands:

* in `readInstructionFlashWordUnsafe` the names `row`, `col`, `out` denote the
  parameters `row_num`, `col_num`, `word`, and `temp` is indexed as a byte
  buffer;
* in `readInstructionFlashWord` the comparison `word == prevWord` and the
  assignment `prevWord = word` are on the pointer parameter `word` itself, as
  written: the value of that pointer is a parameter of the embedding, the
  comparison is equality of the address with `prevWord`, and the assignment
  stores the address reduced to the 32 bits of `prevWord`;
* in `readInstructionFlashRow` `word[0]`, `word[1]`, `word[2]` are the three low
  bytes of the 32-bit word in memory order (little-endian target), and the local
  `index` is declared without an initialiser, so the value it holds on entry is
  a parameter of the embedding.
-/

namespace GasGauge

/-! ## Transport -/

/-- One SMBus transaction issued through the `i2c-dev` helpers. -/
inductive BusOp where
  | writeWord (command value : Nat)
  | writeByte (value : Nat)
  | writeBlock (command : Nat) (bytes : List Nat)
  | readBlock (command : Nat)
  deriving DecidableEq

/-- The bus handle together with the behaviour of the transport. -/
structure Bus where
  /-- Answer to the n-th block read: `none` is a negative return value,
  `some bytes` returns `bytes.length` and fills the buffer with `bytes`. -/
  reads : Nat → Option (List Nat)
  /-- Number of block reads issued so far. -/
  nread : Nat
  /-- Transactions issued so far, oldest first. -/
  trace : List BusOp

/-- Result of a function that may terminate the process with `exit(1)`. -/
inductive Run (α : Type) where
  | returned (value : α) (bus : Bus)
  | exited (bus : Bus)

/-- Bus state when control left the function. -/
def Run.bus {α : Type} : Run α → Bus
  | Run.returned _ b => b
  | Run.exited b => b

/-- Value handed back, when the function returned. -/
def Run.value? {α : Type} : Run α → Option α
  | Run.returned v _ => some v
  | Run.exited _ => none

/-- Word write `i2c_smbus_write_word_data(file, command, value)`; the value is a `__u16`. -/
def i2c_smbus_write_word_data (bus : Bus) (command value : Nat) : Bus :=
  Bus.mk bus.reads bus.nread (bus.trace ++ [BusOp.writeWord command (value % 65536)])

/-- Byte write `i2c_smbus_write_byte(file, value)`. -/
def i2c_smbus_write_byte (bus : Bus) (value : Nat) : Bus :=
  Bus.mk bus.reads bus.nread (bus.trace ++ [BusOp.writeByte (value % 256)])

/-- Block write `i2c_smbus_write_block_data(file, command, length, values)`. -/
def i2c_smbus_write_block_data (bus : Bus) (command length : Nat) (values : List Nat) : Bus :=
  Bus.mk bus.reads bus.nread (bus.trace ++ [BusOp.writeBlock command (values.take length)])

/-- Block read `i2c_smbus_read_block_data(file, command, buf)`: the bytes land in a
`uint8_t` buffer, the length (or an error) is the return value. -/
def i2c_smbus_read_block_data (bus : Bus) (command : Nat) : Option (List Nat) × Bus :=
  ((bus.reads bus.nread).map (List.map (fun b => b % 256)),
   Bus.mk bus.reads (bus.nread + 1) (bus.trace ++ [BusOp.readBlock command]))

/-! ## Boot ROM session and data flash -/

def BR_Smb_FlashWrAddr : Nat := 0x00
def BR_Smb_FlashRdWord : Nat := 0x01
def BR_ReadRAMBlk : Nat := 0x0c

/-- Source `enterBootRom`; the status it returns is ignored by every caller. -/
def enterBootRom (bus : Bus) : Bus :=
  i2c_smbus_write_word_data bus 0 0xf00

/-- Source `exitBootRom`; the status it returns is ignored by every caller. -/
def exitBootRom (bus : Bus) : Bus :=
  i2c_smbus_write_byte bus 8

/-- The expression `temp[0] | temp[1]<<8 | temp[2]<<16` on the read buffer. -/
def assembleWord (temp : List Nat) : Nat :=
  (temp.getD 0 0 ||| (temp.getD 1 0 <<< 8)) ||| (temp.getD 2 0 <<< 16)

/-- Source `readInstructionFlashWordUnsafe`: address write, block read, and the
assembled word when exactly 3 bytes came back (`none` is the return value 0). -/
def readInstructionFlashWordUnsafe (bus : Bus) (row_num col_num : Nat) : Option Nat × Bus :=
  let row := row_num % 65536
  let col := col_num % 256
  let addr := [(row &&& 0xFF) % 256, (row >>> 8) % 256, col]
  let bus1 := i2c_smbus_write_block_data bus BR_Smb_FlashWrAddr 3 addr
  match i2c_smbus_read_block_data bus1 BR_ReadRAMBlk with
  | (some temp, bus2) =>
    if temp.length = 3 then
      (some (assembleWord temp), bus2)
    else (none, bus2)
  | (none, bus2) => (none, bus2)

def RIF_RETRIES : Nat := 30
def RIF_THRESHOLD : Nat := 3

/-- The `for` loop of `readInstructionFlashWord`; the first argument is the number
of iterations still to run (`RIF_RETRIES - retry`).  `word` is the value of the
pointer parameter of that name (an address), `sample` is what a successful
single-shot read stored in `*word`.  The test `word == prevWord` compares the
address with `prevWord`, and `prevWord = word` keeps the low 32 bits of the
address; the value handed back to the caller is `*word`. -/
def readInstructionFlashWordLoop : Nat → Bus → Nat → Nat → Nat → Nat → Nat → Run Nat
  | 0, bus, _, _, _, _, _ => Run.exited bus
  | n + 1, bus, row_num, col_num, word, prevWord, count =>
    match readInstructionFlashWordUnsafe bus row_num col_num with
    | (some sample, bus1) =>
      if word = prevWord then
        if count + 1 = RIF_THRESHOLD then Run.returned sample bus1
        else readInstructionFlashWordLoop n bus1 row_num col_num word prevWord (count + 1)
      else readInstructionFlashWordLoop n bus1 row_num col_num word (word % 4294967296) 0
    | (none, bus1) => readInstructionFlashWordLoop n bus1 row_num col_num word prevWord count

/-- Source `readInstructionFlashWord`; `word` is the address passed as last argument. -/
def readInstructionFlashWord (bus : Bus) (row_num col_num word : Nat) : Run Nat :=
  readInstructionFlashWordLoop RIF_RETRIES bus row_num col_num word 0x55FFFFFF 0

/-! ## Row assembly and the dump drivers -/

/-- The `for` loop of `readInstructionFlashRow`; the first argument is the number of
columns still to read, `data` is the memory addressed from the `data` pointer,
`wordAddr` is `&word`, the address of the local that receives each word. -/
def readInstructionFlashRowLoop :
    Nat → Bus → Nat → Nat → (Int → Nat) → Int → Nat → Run ((Int → Nat) × Int)
  | 0, bus, _, _, data, index, _ => Run.returned (data, index) bus
  | n + 1, bus, row_num, col_num, data, index, wordAddr =>
    match readInstructionFlashWord bus row_num col_num wordAddr with
    | Run.exited bus1 => Run.exited bus1
    | Run.returned word bus1 =>
      let data1 := Function.update data index (word % 256)
      let data2 := Function.update data1 (index + 1) ((word >>> 8) % 256)
      let data3 := Function.update data2 (index + 2) ((word >>> 16) % 256)
      readInstructionFlashRowLoop n bus1 row_num (col_num + 1) data3 (index + 3) wordAddr

/-- Source `readInstructionFlashRow`; `index` is the value held by the
uninitialised local of that name when the loop starts, `wordAddr` is the address
of the local `word`. -/
def readInstructionFlashRow (bus : Bus) (row_num : Nat) (data : Int → Nat) (index : Int)
    (wordAddr : Nat) : Run ((Int → Nat) × Int) :=
  readInstructionFlashRowLoop 32 bus row_num 0 data index wordAddr

/-- Bytes `fwrite` takes from the first `n` cells of a buffer. -/
def bufferBytes (data : Int → Nat) (n : Nat) : List Nat :=
  (List.range n).map (fun i => data (Int.ofNat i))

/-- The row loop of `dumpInstructionFlash`; `index row` is the value the
uninitialised `index` holds in the call for that row, `wordAddr row` the address
of the local `word` in that call. -/
def dumpInstructionFlashLoop :
    Nat → Bus → Nat → (Int → Nat) → (Nat → Int) → (Nat → Nat) → List Nat → Run (List Nat)
  | 0, bus, _, _, _, _, file => Run.returned file bus
  | n + 1, bus, row, data, index, wordAddr, file =>
    match readInstructionFlashRow bus row data (index row) (wordAddr row) with
    | Run.exited bus1 => Run.exited bus1
    | Run.returned r bus1 =>
      dumpInstructionFlashLoop n bus1 (row + 1) r.1 index wordAddr
        (file ++ bufferBytes r.1 96)

/-- Source `dumpInstructionFlash`. -/
def dumpInstructionFlash (bus : Bus) (fopenOk : Bool) (data : Int → Nat) (index : Nat → Int)
    (wordAddr : Nat → Nat) : Run (Option (List Nat)) :=
  if fopenOk then
    match dumpInstructionFlashLoop 0x300 (enterBootRom bus) 0 data index wordAddr [] with
    | Run.exited bus1 => Run.exited bus1
    | Run.returned file bus1 => Run.returned (some file) (exitBootRom bus1)
  else Run.returned none bus

/-! ## Samples as seen by the voting loop -/

/-- Outcome of the i-th single-shot sample counted from the current bus state
(`none` when that read fails). -/
def sampleAt (bus : Bus) (i : Nat) : Option Nat :=
  (readInstructionFlashWordUnsafe (Bus.mk bus.reads (bus.nread + i) []) 0 0).1

/-- The next `n` sample outcomes, in order. -/
def upcoming (bus : Bus) (n : Nat) : List (Option Nat) :=
  (List.range n).map (sampleAt bus)

/-- The loop of `readInstructionFlashWord` as a fold over a finite sequence of sample
outcomes, for the pointer value `word`: `some (v, k)` is "returned `v` at the k-th
outcome", `none` is "ran out of outcomes". -/
def vote (word : Nat) : List (Option Nat) → Nat → Nat → Option (Nat × Nat)
  | [], _, _ => none
  | some sample :: rest, prevWord, count =>
    if word = prevWord then
      if count + 1 = RIF_THRESHOLD then some (sample, 1)
      else (vote word rest prevWord (count + 1)).map (fun r => (r.1, r.2 + 1))
    else (vote word rest (word % 4294967296) 0).map (fun r => (r.1, r.2 + 1))
  | none :: rest, prevWord, count =>
    (vote word rest prevWord count).map (fun r => (r.1, r.2 + 1))

/-- The address write issued by a single-shot read at `(row_num, col_num)`. -/
def addrWrite (row_num col_num : Nat) : BusOp :=
  BusOp.writeBlock 0 [(row_num % 65536) &&& 0xFF, (row_num % 65536) >>> 8, col_num % 256]

/-- Transactions of `k` single-shot reads at `(row_num, col_num)`. -/
def sampleOps : Nat → Nat → Nat → List BusOp
  | 0, _, _ => []
  | k + 1, row_num, col_num =>
    addrWrite row_num col_num :: BusOp.readBlock 0x0c :: sampleOps k row_num col_num

/-- Bus state after `k` single-shot reads at `(row_num, col_num)`. -/
def afterSamples : Nat → Bus → Nat → Nat → Bus
  | 0, bus, _, _ => bus
  | k + 1, bus, row_num, col_num =>
    afterSamples k (readInstructionFlashWordUnsafe bus row_num col_num).2 row_num col_num

/-- The three bytes a device returns for a word, low byte first. -/
def wordBytes (w : Nat) : List Nat :=
  [w % 256, (w >>> 8) % 256, (w >>> 16) % 256]

/-- A transport that answers each of the listed reads in turn (`none` is a failed
read) and fails on every read after them. -/
def scripted (answers : List (Option (List Nat))) : Bus :=
  Bus.mk (fun i => (answers.get? i).join) 0 []

/-- A transport that delivers the listed words as successful samples, then fails. -/
def scriptedWords (ws : List Nat) : Bus :=
  scripted (ws.map (fun w => some (wordBytes w)))

/-- The transport that delivers only the successful samples among the next 30 reads
of `bus`, in their order, and fails on every later read. -/
def keepSuccessful (bus : Bus) : Bus :=
  scriptedWords (upcoming bus RIF_RETRIES).reduceOption

/-! ## Concrete sample sequences used below -/

/-- Thirty samples: 7, 7, 7, then 2, 1, 2, 1, ... (a run of three at the start). -/
def runOfThreeFirst (i : Nat) : Nat := if i < 3 then 7 else i % 2 + 1

/-- Thirty samples: 1, 2, 1, 2, ... and 7, 7, 7 in the last three positions. -/
def runOfThreeLast (i : Nat) : Nat := if 27 ≤ i then 7 else i % 2 + 1

/-- Samples 1, 2, 1, 2, ...: no two adjacent ones are equal. -/
def alternating (i : Nat) : Nat := i % 2 + 1

/-- The first `n` values of a sample sequence. -/
def firstSamples (s : Nat → Nat) (n : Nat) : List Nat := (List.range n).map s

/-- The value 5 on every second read, a failed read in between. -/
def interleavedFailures : Bus :=
  scripted [some (wordBytes 5), none, some (wordBytes 5), none, some (wordBytes 5), none,
    some (wordBytes 5)]

/-- An address of a 4-byte aligned local on the stack of a 32-bit process. -/
def stackWord32 : Nat := 0x7EFFF000

/-- An address of a 4-byte aligned local on the stack of a 64-bit (LP64) process. -/
def stackWord64 : Nat := 0x7FFC00001000

/-- Samples 1, 2, 1, 2 separated by failed reads. -/
def alternatingWithFailures : Bus :=
  scripted [some (wordBytes 1), none, some (wordBytes 2), some (wordBytes 1), none,
    some (wordBytes 2)]

/-- A device that answers every block read with the bytes 3C 2B 1A. -/
def steadyDevice : Bus := Bus.mk (fun _ => some [0x3C, 0x2B, 0x1A]) 0 []

/-- The words acquired for the next `n` columns of a row, up to the first failed
acquisition. -/
def rowWords : Nat → Bus → Nat → Nat → Nat → List Nat
  | 0, _, _, _, _ => []
  | n + 1, bus, row_num, col_num, wordAddr =>
    match readInstructionFlashWord bus row_num col_num wordAddr with
    | Run.exited _ => []
    | Run.returned word bus1 => word :: rowWords n bus1 row_num (col_num + 1) wordAddr

/-! # Theorems -/

/-! ## The single-shot read -/

theorem and_ff_mod (r : Nat) : (r &&& 0xFF) % 256 = r &&& 0xFF := by
  apply Nat.mod_eq_of_lt
  have : r &&& 0xFF ≤ 0xFF := Nat.and_le_right
  omega

theorem shr8_mod (r : Nat) : ((r % 65536) >>> 8) % 256 = (r % 65536) >>> 8 := by
  apply Nat.mod_eq_of_lt
  rw [Nat.shiftRight_eq_div_pow]
  omega

theorem sample_bus (bus : Bus) (r c : Nat) :
    (readInstructionFlashWordUnsafe bus r c).2
      = Bus.mk bus.reads (bus.nread + 1)
          (bus.trace ++ [addrWrite r c, BusOp.readBlock 0x0c]) := by
  unfold readInstructionFlashWordUnsafe
  simp only [i2c_smbus_read_block_data, i2c_smbus_write_block_data, BR_Smb_FlashWrAddr,
    BR_ReadRAMBlk, addrWrite, and_ff_mod, shr8_mod]
  cases h : bus.reads bus.nread with
  | none => simp
  | some t => by_cases h3 : t.length = 3 <;> simp [h3]

theorem sample_fst (bus : Bus) (r c : Nat) :
    (readInstructionFlashWordUnsafe bus r c).1 = sampleAt bus 0 := by
  unfold sampleAt readInstructionFlashWordUnsafe
  simp only [i2c_smbus_read_block_data, i2c_smbus_write_block_data, Nat.add_zero]
  cases h : bus.reads bus.nread with
  | none => simp
  | some t => by_cases h3 : t.length = 3 <;> simp [h3]

theorem sample_eq (bus : Bus) (r c : Nat) :
    readInstructionFlashWordUnsafe bus r c
      = (sampleAt bus 0, Bus.mk bus.reads (bus.nread + 1)
          (bus.trace ++ [addrWrite r c, BusOp.readBlock 0x0c])) := by
  rw [← sample_bus, ← sample_fst bus r c]

theorem sampleAt_shift (reads : Nat → Option (List Nat)) (n i : Nat) (t t2 : List BusOp) :
    sampleAt (Bus.mk reads (n + 1) t) i = sampleAt (Bus.mk reads n t2) (i + 1) := by
  unfold sampleAt
  simp only
  rw [show n + 1 + i = n + (i + 1) by omega]

theorem upcoming_succ (bus : Bus) (n : Nat) (t : List BusOp) :
    upcoming bus (n + 1)
      = sampleAt bus 0 :: upcoming (Bus.mk bus.reads (bus.nread + 1) t) n := by
  unfold upcoming
  rw [List.range_succ_eq_map]
  simp only [List.map_cons, List.map_map]
  congr 1
  apply List.map_congr_left
  intro i _
  simp only [Function.comp]
  exact (sampleAt_shift bus.reads bus.nread i t bus.trace).symm

theorem afterSamples_succ (k : Nat) (bus : Bus) (r c : Nat) :
    afterSamples (k + 1) bus r c
      = afterSamples k (Bus.mk bus.reads (bus.nread + 1)
          (bus.trace ++ [addrWrite r c, BusOp.readBlock 0x0c])) r c := by
  simp only [afterSamples, sample_bus]

/-- The loop of the source is the fold `vote` over the outcomes the bus delivers. -/
theorem loop_eq_vote (n : Nat) : ∀ (bus : Bus) (r c word p k : Nat),
    readInstructionFlashWordLoop n bus r c word p k
      = match vote word (upcoming bus n) p k with
        | some (v, j) => Run.returned v (afterSamples j bus r c)
        | none => Run.exited (afterSamples n bus r c) := by
  induction n with
  | zero =>
    intro bus r c word p k
    simp [readInstructionFlashWordLoop, upcoming, vote, afterSamples]
  | succ n ih =>
    intro bus r c word p k
    rw [upcoming_succ bus n (bus.trace ++ [addrWrite r c, BusOp.readBlock 0x0c])]
    unfold readInstructionFlashWordLoop
    rw [sample_eq]
    cases hs : sampleAt bus 0 with
    | none =>
      simp only [vote]
      rw [ih]
      cases hv : vote word (upcoming (Bus.mk bus.reads (bus.nread + 1)
          (bus.trace ++ [addrWrite r c, BusOp.readBlock 0x0c])) n) p k with
      | none => simp [afterSamples_succ]
      | some vk => simp [afterSamples_succ]
    | some w =>
      simp only [vote]
      by_cases hw : word = p
      · by_cases hc : k + 1 = RIF_THRESHOLD
        · simp [hw, hc, afterSamples, sample_bus]
        · simp only [hw, hc, if_true, if_false]
          rw [ih]
          cases hv : vote p (upcoming (Bus.mk bus.reads (bus.nread + 1)
              (bus.trace ++ [addrWrite r c, BusOp.readBlock 0x0c])) n) p (k + 1) with
          | none => simp [afterSamples_succ]
          | some vk => simp [afterSamples_succ]
      · simp only [hw, if_false]
        rw [ih]
        cases hv : vote word (upcoming (Bus.mk bus.reads (bus.nread + 1)
            (bus.trace ++ [addrWrite r c, BusOp.readBlock 0x0c])) n)
            (word % 4294967296) 0 with
        | none => simp [afterSamples_succ]
        | some vk => simp [afterSamples_succ]

/-! ## The loop as a fold over a finite sequence of outcomes -/

theorem vote_pos_le (word : Nat) : ∀ (l : List (Option Nat)) (p c v k : Nat),
    vote word l p c = some (v, k) → 1 ≤ k ∧ k ≤ l.length := by
  intro l
  induction l with
  | nil => intro p c v k h; simp [vote] at h
  | cons o rest ih =>
    intro p c v k h
    cases o with
    | none =>
      simp only [vote, Option.map_eq_some'] at h
      obtain ⟨⟨v1, k1⟩, h1, h2⟩ := h
      have := ih _ _ _ _ h1
      simp only [Prod.mk.injEq] at h2
      simp only [List.length_cons]
      omega
    | some w =>
      simp only [vote] at h
      split_ifs at h with hw hc
      · simp only [Option.some.injEq, Prod.mk.injEq] at h
        simp only [List.length_cons]
        omega
      · simp only [Option.map_eq_some'] at h
        obtain ⟨⟨v1, k1⟩, h1, h2⟩ := h
        have := ih _ _ _ _ h1
        simp only [Prod.mk.injEq] at h2
        simp only [List.length_cons]
        omega
      · simp only [Option.map_eq_some'] at h
        obtain ⟨⟨v1, k1⟩, h1, h2⟩ := h
        have := ih _ _ _ _ h1
        simp only [Prod.mk.injEq] at h2
        simp only [List.length_cons]
        omega

/-- An address that does not fit in 32 bits never equals `prevWord`: nothing is
returned, whatever the samples. -/
theorem vote_wide_pointer (word : Nat) (hw : 4294967296 ≤ word) :
    ∀ (l : List (Option Nat)) (p c : Nat), p < 4294967296 → vote word l p c = none := by
  intro l
  induction l with
  | nil => intro p c _; rfl
  | cons o rest ih =>
    intro p c hp
    cases o with
    | none => rw [vote, ih p c hp]; rfl
    | some s =>
      have hne : word ≠ p := by omega
      rw [vote, if_neg hne, ih _ 0 (Nat.mod_lt _ (by omega))]
      rfl

/-- Once `prevWord` holds the address, every successful read counts as a match:
the read that brings the count to 3 is returned, whatever its value. -/
theorem vote_matching (word : Nat) : ∀ (l : List (Option Nat)) (c v k : Nat),
    c < 3 → vote word l word c = some (v, k) →
    ∃ pre, (l.take k).reduceOption = pre ++ [v] ∧ pre.length + c = 2 := by
  intro l
  induction l with
  | nil => intro c v k _ h; simp [vote] at h
  | cons o rest ih =>
    intro c v k hc h
    cases o with
    | none =>
      simp only [vote, Option.map_eq_some'] at h
      obtain ⟨⟨v1, k1⟩, h1, h2⟩ := h
      simp only [Prod.mk.injEq] at h2
      obtain ⟨rfl, rfl⟩ := h2
      obtain ⟨pre, hpre, hlen⟩ := ih c v1 k1 hc h1
      exact ⟨pre, by simpa [List.reduceOption_cons_of_none] using hpre, hlen⟩
    | some s =>
      simp only [vote, if_true] at h
      split_ifs at h with hthr
      · simp only [Option.some.injEq, Prod.mk.injEq] at h
        obtain ⟨rfl, rfl⟩ := h
        refine ⟨[], by simp [List.reduceOption_cons_of_some], ?_⟩
        simp only [RIF_THRESHOLD] at hthr
        simp only [List.length_nil]
        omega
      · simp only [Option.map_eq_some'] at h
        obtain ⟨⟨v1, k1⟩, h1, h2⟩ := h
        simp only [Prod.mk.injEq] at h2
        obtain ⟨rfl, rfl⟩ := h2
        simp only [RIF_THRESHOLD] at hthr
        obtain ⟨pre, hpre, hlen⟩ := ih (c + 1) v1 k1 (by omega) h1
        refine ⟨s :: pre, ?_, by simp only [List.length_cons]; omega⟩
        simpa [List.reduceOption_cons_of_some] using hpre

/-- With an address that fits in 32 bits and differs from the initial `prevWord`, a
returned value is the fourth successful read among the outcomes consumed. -/
theorem vote_narrow_pointer (word : Nat) (hw : word < 4294967296) (hne : word ≠ 0x55FFFFFF) :
    ∀ (l : List (Option Nat)) (v k : Nat), vote word l 0x55FFFFFF 0 = some (v, k) →
    ∃ pre, (l.take k).reduceOption = pre ++ [v] ∧ pre.length = 3 := by
  intro l
  induction l with
  | nil => intro v k h; simp [vote] at h
  | cons o rest ih =>
    intro v k h
    cases o with
    | none =>
      simp only [vote, Option.map_eq_some'] at h
      obtain ⟨⟨v1, k1⟩, h1, h2⟩ := h
      simp only [Prod.mk.injEq] at h2
      obtain ⟨rfl, rfl⟩ := h2
      obtain ⟨pre, hpre, hlen⟩ := ih v1 k1 h1
      exact ⟨pre, by simpa [List.reduceOption_cons_of_none] using hpre, hlen⟩
    | some s =>
      rw [vote, if_neg hne, Nat.mod_eq_of_lt hw] at h
      simp only [Option.map_eq_some'] at h
      obtain ⟨⟨v1, k1⟩, h1, h2⟩ := h
      simp only [Prod.mk.injEq] at h2
      obtain ⟨rfl, rfl⟩ := h2
      obtain ⟨pre, hpre, hlen⟩ := vote_matching word rest 0 v1 k1 (by omega) h1
      refine ⟨s :: pre, ?_, by simp only [List.length_cons]; omega⟩
      simpa [List.reduceOption_cons_of_some] using hpre

/-- With an address that fits in 32 bits and differs from the initial `prevWord`, four
successful reads in a row from the start return the fourth one. -/
theorem vote_narrow_four (word : Nat) (hw : word < 4294967296) (hne : word ≠ 0x55FFFFFF)
    (s0 s1 s2 s3 : Nat) (rest : List (Option Nat)) :
    vote word (some s0 :: some s1 :: some s2 :: some s3 :: rest) 0x55FFFFFF 0
      = some (s3, 4) := by
  simp [vote, hne, Nat.mod_eq_of_lt hw, RIF_THRESHOLD]

theorem fst_bump (o : Option (Nat × Nat)) :
    (o.map (fun r => (r.1, r.2 + 1))).map Prod.fst = o.map Prod.fst := by
  cases o <;> rfl

theorem vote_value_skips_failures (word : Nat) : ∀ (l : List (Option Nat)) (p c : Nat),
    (vote word l p c).map Prod.fst
      = (vote word (l.reduceOption.map some) p c).map Prod.fst := by
  intro l
  induction l with
  | nil => intro p c; rfl
  | cons o rest ih =>
    intro p c
    cases o with
    | none =>
      rw [List.reduceOption_cons_of_none, vote, fst_bump]
      exact ih p c
    | some w =>
      rw [List.reduceOption_cons_of_some, List.map_cons, vote, vote]
      split_ifs
      · rfl
      · rw [fst_bump, fst_bump]; exact ih _ _
      · rw [fst_bump, fst_bump]; exact ih _ _

theorem vote_failures_only (word m p c : Nat) :
    vote word (List.replicate m none) p c = none := by
  induction m with
  | zero => rfl
  | succ m ih => rw [List.replicate_succ, vote, ih]; rfl

theorem vote_value_trailing_failures (word : Nat) : ∀ (l : List (Option Nat)) (m p c : Nat),
    (vote word (l ++ List.replicate m none) p c).map Prod.fst
      = (vote word l p c).map Prod.fst := by
  intro l
  induction l with
  | nil => intro m p c; simp [vote_failures_only, vote]
  | cons o rest ih =>
    intro m p c
    cases o with
    | none =>
      rw [List.cons_append, vote, vote, fst_bump, fst_bump]
      exact ih m p c
    | some w =>
      rw [List.cons_append, vote, vote]
      split_ifs
      · rfl
      · rw [fst_bump, fst_bump]; exact ih _ _ _
      · rw [fst_bump, fst_bump]; exact ih _ _ _

/-! ## Bus state after a number of samples -/

theorem afterSamples_eq (k : Nat) : ∀ (bus : Bus) (r c : Nat),
    afterSamples k bus r c
      = Bus.mk bus.reads (bus.nread + k) (bus.trace ++ sampleOps k r c) := by
  induction k with
  | zero => intro bus r c; simp [afterSamples, sampleOps]
  | succ k ih =>
    intro bus r c
    rw [afterSamples_succ, ih]
    simp only [sampleOps, List.append_assoc, List.cons_append, List.nil_append]
    congr 1
    omega

theorem sampleOps_succ_last (k r c : Nat) :
    sampleOps (k + 1) r c = sampleOps k r c ++ [addrWrite r c, BusOp.readBlock 0x0c] := by
  induction k with
  | zero => simp [sampleOps]
  | succ k ih =>
    conv_lhs => rw [sampleOps, ih]
    simp [sampleOps]

theorem afterSamples_succ_last (k : Nat) (bus : Bus) (r c : Nat) :
    afterSamples (k + 1) bus r c
      = Bus.mk (afterSamples k bus r c).reads ((afterSamples k bus r c).nread + 1)
          ((afterSamples k bus r c).trace ++ [addrWrite r c, BusOp.readBlock 0x0c]) := by
  rw [afterSamples_eq, afterSamples_eq, sampleOps_succ_last]
  simp [Nat.add_assoc]

theorem assembleWord_lt (a b c : Nat) (ha : a < 256) (hb : b < 256) (hc : c < 256) :
    assembleWord [a, b, c] < 2 ^ 24 := by
  simp only [assembleWord, List.getD_cons_zero, List.getD_cons_succ, Nat.shiftLeft_eq]
  apply Nat.or_lt_two_pow
  · apply Nat.or_lt_two_pow <;> omega
  · omega

theorem sampleAt_lt (bus : Bus) (i w : Nat) (h : sampleAt bus i = some w) : w < 2 ^ 24 := by
  unfold sampleAt readInstructionFlashWordUnsafe at h
  simp only [i2c_smbus_read_block_data, i2c_smbus_write_block_data] at h
  cases hr : bus.reads (bus.nread + i) with
  | none => simp [hr] at h
  | some t =>
    simp only [hr, Option.map_some'] at h
    split_ifs at h with h3
    · simp only [Option.some.injEq] at h
      match t, h3, h with
      | [a, b, c], _, h =>
        rw [← h]
        exact assembleWord_lt _ _ _ (Nat.mod_lt _ (by omega)) (Nat.mod_lt _ (by omega))
          (Nat.mod_lt _ (by omega))

theorem upcoming_lt (bus : Bus) (n w : Nat) (h : some w ∈ upcoming bus n) : w < 2 ^ 24 := by
  simp only [upcoming, List.mem_map] at h
  obtain ⟨i, _, hi⟩ := h
  exact sampleAt_lt bus i w hi

theorem upcoming_length (bus : Bus) (n : Nat) : (upcoming bus n).length = n := by
  simp [upcoming]

theorem upcoming_take (bus : Bus) (n k : Nat) (h : k ≤ n) :
    (upcoming bus n).take k = upcoming bus k := by
  simp only [upcoming, ← List.map_take, List.take_range, Nat.min_eq_left h]

theorem upcoming_split (bus : Bus) (n k : Nat) (h : k ≤ n) :
    upcoming bus n = upcoming bus k ++ (upcoming bus n).drop k := by
  rw [← upcoming_take bus n k h, List.take_append_drop]

theorem readWord_eq_vote (bus : Bus) (r c word : Nat) :
    readInstructionFlashWord bus r c word
      = match vote word (upcoming bus RIF_RETRIES) 0x55FFFFFF 0 with
        | some (v, j) => Run.returned v (afterSamples j bus r c)
        | none => Run.exited (afterSamples RIF_RETRIES bus r c) :=
  loop_eq_vote RIF_RETRIES bus r c word 0x55FFFFFF 0

theorem value_eq_vote (bus : Bus) (r c word : Nat) :
    (readInstructionFlashWord bus r c word).value?
      = (vote word (upcoming bus 30) 0x55FFFFFF 0).map Prod.fst := by
  rw [readWord_eq_vote, RIF_RETRIES]
  cases vote word (upcoming bus 30) 0x55FFFFFF 0 with
  | none => rfl
  | some vk => rfl

theorem loop_skips_failures (m : Nat) : ∀ (n : Nat) (bus : Bus) (r c word p k : Nat),
    (∀ i, i < m → sampleAt bus i = none) →
    readInstructionFlashWordLoop (m + n) bus r c word p k
      = readInstructionFlashWordLoop n (afterSamples m bus r c) r c word p k := by
  induction m with
  | zero => intro n bus r c word p k _; simp [afterSamples]
  | succ m ih =>
    intro n bus r c word p k h
    rw [show m + 1 + n = (m + n) + 1 by omega, readInstructionFlashWordLoop, sample_eq,
      h 0 (by omega), afterSamples_succ]
    apply ih
    intro i hi
    rw [sampleAt_shift bus.reads bus.nread i _ bus.trace]
    exact h (i + 1) (by omega)

/-! ## What the loop returns, by the width of the pointer -/

/-- An address that does not fit in 32 bits (LP64): every acquisition uses up its 30
reads and ends in `exit(1)`, whatever the device answers. -/
theorem wide_pointer_never_returns (bus : Bus) (r c word : Nat) (hw : 4294967296 ≤ word) :
    readInstructionFlashWord bus r c word = Run.exited (afterSamples RIF_RETRIES bus r c) := by
  rw [readWord_eq_vote, vote_wide_pointer word hw _ _ _ (by omega)]

/-- An address that fits in 32 bits: a returned value is the fourth successful read,
and the three successful reads before it may hold any values. -/
theorem narrow_pointer_returns_fourth_success (bus bus1 : Bus) (r c word v : Nat)
    (hw : word < 4294967296) (hne : word ≠ 0x55FFFFFF)
    (h : readInstructionFlashWord bus r c word = Run.returned v bus1) :
    ∃ k pre, k ≤ 30 ∧ bus1.nread = bus.nread + k
      ∧ (upcoming bus k).reduceOption = pre ++ [v] ∧ pre.length = 3 := by
  rw [readWord_eq_vote, RIF_RETRIES] at h
  cases hv : vote word (upcoming bus 30) 0x55FFFFFF 0 with
  | none => simp [hv] at h
  | some vk =>
    obtain ⟨v1, k⟩ := vk
    simp only [hv, Run.returned.injEq] at h
    obtain ⟨rfl, rfl⟩ := h
    have hk := vote_pos_le word _ _ _ _ _ hv
    rw [upcoming_length] at hk
    obtain ⟨pre, hpre, hlen⟩ := vote_narrow_pointer word hw hne _ v1 k hv
    rw [upcoming_take bus 30 k hk.2] at hpre
    exact ⟨k, pre, hk.2, by rw [afterSamples_eq], hpre, hlen⟩

/-- An address that fits in 32 bits: four successful reads in a row from the start
return the fourth sample after exactly 4 reads, whatever the four values are. -/
theorem narrow_pointer_four_reads (bus : Bus) (r c word s0 s1 s2 s3 : Nat)
    (hw : word < 4294967296) (hne : word ≠ 0x55FFFFFF)
    (h0 : sampleAt bus 0 = some s0) (h1 : sampleAt bus 1 = some s1)
    (h2 : sampleAt bus 2 = some s2) (h3 : sampleAt bus 3 = some s3) :
    readInstructionFlashWord bus r c word = Run.returned s3 (afterSamples 4 bus r c) := by
  rw [readWord_eq_vote, RIF_RETRIES, upcoming_split bus 30 4 (by omega)]
  have h4 : upcoming bus 4 = [some s0, some s1, some s2, some s3] := by
    simp [upcoming, List.range_succ, h0, h1, h2, h3]
  rw [h4]
  simp only [List.cons_append, List.nil_append, vote_narrow_four word hw hne]

/-- The first successful read of an acquisition leaves the loop with `prevWord` set to
the address (reduced to 32 bits) and the count at 0; the sample itself is not kept. -/
theorem first_success_stores_pointer (bus : Bus) (r c word m s : Nat)
    (hne : word ≠ 0x55FFFFFF) (hm : m < RIF_RETRIES)
    (hfail : ∀ i, i < m → sampleAt bus i = none) (hs : sampleAt bus m = some s) :
    readInstructionFlashWord bus r c word
      = readInstructionFlashWordLoop (RIF_RETRIES - (m + 1)) (afterSamples (m + 1) bus r c)
          r c word (word % 4294967296) 0 := by
  have hsample : sampleAt (afterSamples m bus r c) 0 = some s := by
    rw [afterSamples_eq]
    rw [← hs]
    unfold sampleAt
    simp only [Nat.add_zero]
  unfold readInstructionFlashWord
  rw [show RIF_RETRIES = m + ((RIF_RETRIES - (m + 1)) + 1) by omega,
    loop_skips_failures m _ bus r c _ _ _ hfail]
  rw [show m + (RIF_RETRIES - (m + 1) + 1) - (m + 1) = RIF_RETRIES - (m + 1) by omega]
  rw [readInstructionFlashWordLoop, sample_eq, hsample]
  simp only [hne, if_false]
  rw [afterSamples_succ_last]

/-! ## The acquisition on concrete sample sequences -/

/-- C1 (the code at the failing input): 30 successful samples 1, 2, 1, 2, ... with the
value 7 as samples (28,29,30), and 30 samples with 7 as samples (1,2,3) followed by
2, 1, 2, ...  With a 32-bit stack address for `word` both acquisitions return 2, the
fourth read, after 4 reads; with a 64-bit stack address both end in `exit(1)` after
30 reads.  In neither case is 7 returned. -/
theorem run_of_three_is_not_what_is_returned :
    (upcoming (scriptedWords (firstSamples runOfThreeLast 30)) 30
        = (firstSamples runOfThreeLast 30).map some
      ∧ (firstSamples runOfThreeLast 30).drop 27 = [7, 7, 7]
      ∧ (readInstructionFlashWord (scriptedWords (firstSamples runOfThreeLast 30)) 0 0
          stackWord32).value? = some 2
      ∧ (readInstructionFlashWord (scriptedWords (firstSamples runOfThreeLast 30)) 0 0
          stackWord32).bus.nread = 4
      ∧ (readInstructionFlashWord (scriptedWords (firstSamples runOfThreeLast 30)) 0 0
          stackWord64).value? = none)
    ∧ (upcoming (scriptedWords (firstSamples runOfThreeFirst 30)) 30
        = (firstSamples runOfThreeFirst 30).map some
      ∧ (firstSamples runOfThreeFirst 30).take 4 = [7, 7, 7, 2]
      ∧ (readInstructionFlashWord (scriptedWords (firstSamples runOfThreeFirst 30)) 0 0
          stackWord32).value? = some 2
      ∧ (readInstructionFlashWord (scriptedWords (firstSamples runOfThreeFirst 30)) 0 0
          stackWord32).bus.nread = 4
      ∧ (readInstructionFlashWord (scriptedWords (firstSamples runOfThreeFirst 30)) 0 0
          stackWord64).value? = none) := by
  decide

/-- C2 (the code at the failing input): the outcomes 1, failure, 2, 1, failure, 2 and
then failures hold no value in two adjacent positions, let alone three; with a 32-bit
stack address for `word` the acquisition returns 2 after 6 reads instead of failing. -/
theorem outcomes_without_run_are_returned :
    upcoming alternatingWithFailures 30
        = [some 1, none, some 2, some 1, none, some 2] ++ List.replicate 24 none
    ∧ (readInstructionFlashWord alternatingWithFailures 0 0 stackWord32).value? = some 2
    ∧ (readInstructionFlashWord alternatingWithFailures 0 0 stackWord32).bus.nread = 6 := by
  decide

/-- C4 (the code at the failing input): the 30 successful samples 1, 2, 1, 2, ..., no
two adjacent ones equal; with a 32-bit stack address for `word` the acquisition
returns 2 after 4 reads instead of failing after 30. -/
theorem never_repeating_samples_are_returned :
    upcoming (scriptedWords (firstSamples alternating 30)) 30
        = (firstSamples alternating 30).map some
    ∧ (∀ i, i < 29 → alternating i ≠ alternating (i + 1))
    ∧ (readInstructionFlashWord (scriptedWords (firstSamples alternating 30)) 0 0
          stackWord32).value? = some 2
    ∧ (readInstructionFlashWord (scriptedWords (firstSamples alternating 30)) 0 0
          stackWord32).bus.nread = 4 := by
  decide

/-- C9 (the code at the failing input): three bytes FF FF FF assemble to a word below
2^24, different from 0x55FFFFFF.  On the samples 1, 2, 3, 4 with a 32-bit stack
address for `word`, the first successful read leaves the loop with `prevWord` equal
to that address and count 0, not with the sample 1 as candidate: the run returns 4
after 4 reads, where the loop continued from candidate 1 and count 0 would not. -/
theorem first_sample_stores_the_pointer :
    assembleWord [0xFF, 0xFF, 0xFF] < 2 ^ 24
    ∧ assembleWord [0xFF, 0xFF, 0xFF] ≠ 0x55FFFFFF
    ∧ readInstructionFlashWord (scriptedWords [1, 2, 3, 4]) 0 0 stackWord32
        = readInstructionFlashWordLoop (RIF_RETRIES - (0 + 1))
            (afterSamples (0 + 1) (scriptedWords [1, 2, 3, 4]) 0 0) 0 0
            stackWord32 (stackWord32 % 4294967296) 0
    ∧ stackWord32 % 4294967296 ≠ 1
    ∧ (readInstructionFlashWord (scriptedWords [1, 2, 3, 4]) 0 0 stackWord32).value? = some 4
    ∧ (readInstructionFlashWord (scriptedWords [1, 2, 3, 4]) 0 0 stackWord32).bus.nread = 4
    ∧ (readInstructionFlashWordLoop (RIF_RETRIES - (0 + 1))
          (afterSamples (0 + 1) (scriptedWords [1, 2, 3, 4]) 0 0) 0 0
          stackWord32 1 0).value? = none :=
  ⟨by decide, by decide,
   first_success_stores_pointer (scriptedWords [1, 2, 3, 4]) 0 0 stackWord32 0 1
     (by decide) (by decide) (by decide) (by decide),
   by decide, by decide, by decide, by decide⟩

/-- C10 (the code at the failing input): on the successful samples 9, 8, 7, 6 with a
32-bit stack address for `word` the acquisition returns 6, a value sampled once, after
4 reads. -/
theorem value_sampled_once_is_returned :
    upcoming (scriptedWords [9, 8, 7, 6]) 4 = [some 9, some 8, some 7, some 6]
    ∧ (readInstructionFlashWord (scriptedWords [9, 8, 7, 6]) 0 0 stackWord32).value? = some 6
    ∧ (readInstructionFlashWord (scriptedWords [9, 8, 7, 6]) 0 0 stackWord32).bus.nread = 4 := by
  decide

/-! ## The address bytes -/

/-- C7 (counterexample): for row 1, column 2 the address payload is 1, 0, 2 (row low,
row high, column), not 2, 1, 0 (column first). -/
theorem address_payload_is_not_column_first :
    (readInstructionFlashWordUnsafe (scripted []) 1 2).2.trace
        = [BusOp.writeBlock 0x00 [1, 0, 2], BusOp.readBlock 0x0c]
    ∧ (readInstructionFlashWordUnsafe (scripted []) 1 2).2.trace
        ≠ [BusOp.writeBlock 0x00 [2, 1 &&& 0xFF, 1 >>> 8], BusOp.readBlock 0x0c] := by
  decide

/-- C7 (amended): the single-shot read sets the address by a block write to
sub-command 0x00 whose 3-byte payload is row low byte, row high byte, column, and
follows it with a block read of sub-command 0x0C. -/
theorem address_payload_row_then_column (bus : Bus) (row_num col_num : Nat)
    (hr : row_num < 65536) (hc : col_num < 256) :
    (readInstructionFlashWordUnsafe bus row_num col_num).2.trace
      = bus.trace ++ [BusOp.writeBlock BR_Smb_FlashWrAddr
            [row_num &&& 0xFF, row_num >>> 8, col_num],
          BusOp.readBlock BR_ReadRAMBlk] := by
  rw [sample_bus]
  simp only [addrWrite, BR_Smb_FlashWrAddr, BR_ReadRAMBlk, Nat.mod_eq_of_lt hr,
    Nat.mod_eq_of_lt hc]

/-- Instance of C7 (amended): last row 0x2FF, last column 31. -/
theorem address_payload_row_then_column_witness :
    (readInstructionFlashWordUnsafe (scripted []) 0x2FF 31).2.trace
      = (scripted []).trace ++ [BusOp.writeBlock BR_Smb_FlashWrAddr
            [0x2FF &&& 0xFF, 0x2FF >>> 8, 31],
          BusOp.readBlock BR_ReadRAMBlk] :=
  address_payload_row_then_column (scripted []) 0x2FF 31 (by decide) (by decide)

/-! ## Failed samples are skipped -/

theorem assembleWord_wordBytes (w : Nat) (h : w < 2 ^ 24) :
    assembleWord ((wordBytes w).map (fun b => b % 256)) = w := by
  simp only [wordBytes, List.map_cons, List.map_nil, assembleWord, List.getD_cons_zero,
    List.getD_cons_succ, Nat.shiftLeft_eq, Nat.shiftRight_eq_div_pow, Nat.mod_mod]
  have e1 : w % 256 ||| w / 2 ^ 8 % 256 * 2 ^ 8 = 2 ^ 8 * (w / 2 ^ 8 % 256) + w % 256 := by
    rw [Nat.mul_add_lt_is_or (by omega), Nat.or_comm, Nat.mul_comm]
  have k2 : 2 ^ 16 * (w / 2 ^ 16 % 256) + (2 ^ 8 * (w / 2 ^ 8 % 256) + w % 256)
      = 2 ^ 16 * (w / 2 ^ 16 % 256) ||| (2 ^ 8 * (w / 2 ^ 8 % 256) + w % 256) :=
    Nat.mul_add_lt_is_or (by omega) _
  have e2 : (2 ^ 8 * (w / 2 ^ 8 % 256) + w % 256) ||| w / 2 ^ 16 % 256 * 2 ^ 16
      = 2 ^ 16 * (w / 2 ^ 16 % 256) + (2 ^ 8 * (w / 2 ^ 8 % 256) + w % 256) := by
    rw [k2, Nat.or_comm, Nat.mul_comm]
  rw [e1, e2]
  omega

theorem sampleAt_scriptedWords (ws : List Nat) (hb : ∀ w, w ∈ ws → w < 2 ^ 24) (i : Nat) :
    sampleAt (scriptedWords ws) i = ws[i]? := by
  unfold sampleAt readInstructionFlashWordUnsafe scriptedWords scripted
  simp only [i2c_smbus_read_block_data, i2c_smbus_write_block_data, Nat.zero_add,
    List.get?_eq_getElem?, List.getElem?_map]
  cases hi : ws[i]? with
  | none => simp
  | some w =>
    have hw : w < 2 ^ 24 := hb w (List.getElem?_mem hi)
    have h3 : ((wordBytes w).map (fun b => b % 256)).length = 3 := rfl
    simp only [Option.map_some', Option.join, Option.bind, id, h3, if_true,
      assembleWord_wordBytes w hw]

theorem range_map_getElem?_pad (ws : List Nat) (n : Nat) (h : ws.length ≤ n) :
    (List.range n).map (fun i => ws[i]?)
      = ws.map some ++ List.replicate (n - ws.length) none := by
  apply List.ext_getElem?
  intro i
  by_cases hin : i < n
  · by_cases hil : i < ws.length
    · rw [List.getElem?_append_left (by simpa using hil)]
      simp [List.getElem?_range hin, List.getElem?_eq_getElem hil]
    · rw [List.getElem?_append_right (by simpa using hil)]
      rw [List.getElem?_replicate_of_lt (by simp; omega)]
      simp [List.getElem?_range hin, List.getElem?_eq_none (Nat.le_of_not_lt hil)]
  · rw [List.getElem?_eq_none (by simp; omega), List.getElem?_eq_none (by simp; omega)]

/-- C5: a failed single-shot sample uses up one iteration and leaves candidate and
counter as they were; so the value an acquisition yields (or its failure) is the
one obtained on a transport that delivers just the successful samples of the 30
outcomes, in order, and nothing after them. -/
theorem failed_samples_only_consume_retries :
    (∀ (n : Nat) (bus : Bus) (r c word prevWord count : Nat),
      (readInstructionFlashWordUnsafe bus r c).1 = none →
      readInstructionFlashWordLoop (n + 1) bus r c word prevWord count
        = readInstructionFlashWordLoop n (readInstructionFlashWordUnsafe bus r c).2 r c
            word prevWord count)
    ∧ (∀ (bus : Bus) (r c word : Nat),
      (readInstructionFlashWord bus r c word).value?
        = (readInstructionFlashWord (keepSuccessful bus) r c word).value?) := by
  constructor
  · intro n bus r c word p k h
    rw [readInstructionFlashWordLoop]
    cases hres : readInstructionFlashWordUnsafe bus r c with
    | mk o b =>
      rw [hres] at h
      simp only at h
      subst h
      rfl
  · intro bus r c word
    have hb : ∀ w, w ∈ (upcoming bus 30).reduceOption → w < 2 ^ 24 := by
      intro w hw
      exact upcoming_lt bus 30 w (List.reduceOption_mem_iff.mp hw)
    have hlen : ((upcoming bus 30).reduceOption).length ≤ 30 := by
      have := List.reduceOption_length_le (upcoming bus 30)
      rwa [upcoming_length] at this
    have hkeep : upcoming (keepSuccessful bus) 30
        = ((upcoming bus 30).reduceOption).map some
          ++ List.replicate (30 - ((upcoming bus 30).reduceOption).length) none := by
      rw [← range_map_getElem?_pad _ 30 hlen]
      unfold upcoming keepSuccessful
      apply List.map_congr_left
      intro i _
      exact sampleAt_scriptedWords _ hb i
    rw [value_eq_vote, value_eq_vote, hkeep, vote_value_trailing_failures,
      ← vote_value_skips_failures]

/-- Instance of C5: a failed first read, and the value 5 interleaved with failed reads. -/
theorem failed_samples_only_consume_retries_witness :
    (readInstructionFlashWordUnsafe (scripted [none, some (wordBytes 5)]) 0 0).1 = none
    ∧ readInstructionFlashWordLoop (29 + 1) (scripted [none, some (wordBytes 5)]) 0 0
          stackWord32 0x55FFFFFF 0
        = readInstructionFlashWordLoop 29
            (readInstructionFlashWordUnsafe (scripted [none, some (wordBytes 5)]) 0 0).2 0 0
            stackWord32 0x55FFFFFF 0
    ∧ (readInstructionFlashWord interleavedFailures 0 0 stackWord32).value?
        = (readInstructionFlashWord (keepSuccessful interleavedFailures) 0 0
            stackWord32).value? :=
  ⟨by decide,
   failed_samples_only_consume_retries.1 29 (scripted [none, some (wordBytes 5)]) 0 0
     stackWord32 0x55FFFFFF 0 (by decide),
   failed_samples_only_consume_retries.2 interleavedFailures 0 0 stackWord32⟩

/-! ## Row assembly -/

/-- C6 (the code at the failing input): on a device that answers every read with
3C 2B 1A, with the buffer zeroed and the uninitialised `index` holding 1 on entry,
offset 0 of the buffer is left untouched, the three bytes of the word of column 0 land
at offsets 1, 2, 3, and `index` ends at 97: the 96 bytes occupy offsets 1 to 96. -/
theorem row_bytes_start_at_uninitialised_index :
    (readInstructionFlashRow steadyDevice 0 (fun _ => 0) 1 stackWord32).value?.map
        (fun r => (r.1 0, r.1 1, r.1 2, r.1 3, r.2))
      = some (0, 0x3C, 0x2B, 0x1A, 97) := by
  decide

/-- Layout of a row that was read completely: with `index` the value the local of that
name held on entry, byte `k` of the word of column `j` is at offset `index + 3 * j + k`,
`index` has advanced by 96 at the end of a 32-column row, and no cell outside those
offsets is written. -/
theorem rowLoop_layout (n : Nat) : ∀ (bus b : Bus) (r c : Nat) (data : Int → Nat)
    (index : Int) (wordAddr : Nat) (res : (Int → Nat) × Int),
    readInstructionFlashRowLoop n bus r c data index wordAddr = Run.returned res b →
    res.2 = index + 3 * (n : Int)
    ∧ (rowWords n bus r c wordAddr).length = n
    ∧ (∀ j k : Nat, j < n → k < 3 →
        res.1 (index + 3 * (j : Int) + (k : Int))
          = ((rowWords n bus r c wordAddr).getD j 0 >>> (8 * k)) % 256)
    ∧ (∀ i : Int, (i < index ∨ index + 3 * (n : Int) ≤ i) → res.1 i = data i) := by
  induction n with
  | zero =>
    intro bus b r c data index wordAddr res h
    simp only [readInstructionFlashRowLoop, Run.returned.injEq] at h
    obtain ⟨rfl, _⟩ := h
    refine ⟨by simp, rfl, ?_, ?_⟩
    · intro j k hj; omega
    · intro i _; rfl
  | succ n ih =>
    intro bus b r c data index wordAddr res h
    rw [readInstructionFlashRowLoop] at h
    cases hw : readInstructionFlashWord bus r c wordAddr with
    | exited b1 => rw [hw] at h; simp at h
    | returned w b1 =>
      rw [hw] at h
      obtain ⟨h1, h2, h3, h4⟩ := ih _ _ _ _ _ _ _ _ h
      have hwords : rowWords (n + 1) bus r c wordAddr
          = w :: rowWords n b1 r (c + 1) wordAddr := by
        rw [rowWords, hw]
      refine ⟨?_, ?_, ?_, ?_⟩
      · rw [h1]; push_cast; omega
      · rw [hwords, List.length_cons, h2]
      · intro j k hj hk
        rw [hwords]
        cases j with
        | zero =>
          rw [h4 _ (Or.inl (by omega))]
          simp only [List.getD_cons_zero, Function.update_apply]
          interval_cases k
          · rw [if_neg (by omega), if_neg (by omega), if_pos (by omega)]; simp
          · rw [if_neg (by omega), if_pos (by omega)]
          · rw [if_pos (by omega)]
        | succ j =>
          have e : index + 3 * ((j + 1 : Nat) : Int) + (k : Int)
              = index + 3 + 3 * (j : Int) + (k : Int) := by push_cast; omega
          rw [List.getD_cons_succ, e]
          exact h3 j k (by omega) hk
      · intro i hi
        rw [h4 i (by push_cast at hi ⊢; omega)]
        simp only [Function.update_apply]
        rw [if_neg (by push_cast at hi; omega), if_neg (by push_cast at hi; omega),
          if_neg (by push_cast at hi; omega)]

/-! ## Boot ROM session around the dumps -/

theorem steady_word (bus : Bus) (r c word : Nat) (hw : word < 4294967296)
    (hne : word ≠ 0x55FFFFFF) (h : bus.reads = fun _ => some [0x3C, 0x2B, 0x1A]) :
    readInstructionFlashWord bus r c word
      = Run.returned 0x1A2B3C (afterSamples 4 bus r c) := by
  have hs : ∀ i, sampleAt bus i = some 0x1A2B3C := by
    intro i
    unfold sampleAt readInstructionFlashWordUnsafe
    simp [i2c_smbus_read_block_data, i2c_smbus_write_block_data, h, assembleWord]
  exact narrow_pointer_four_reads bus r c word _ _ _ _ hw hne (hs 0) (hs 1) (hs 2) (hs 3)

theorem steady_rowLoop (n : Nat) : ∀ (bus : Bus) (r c : Nat) (data : Int → Nat) (index : Int)
    (word : Nat), word < 4294967296 → word ≠ 0x55FFFFFF →
    bus.reads = (fun _ => some [0x3C, 0x2B, 0x1A]) →
    ∃ res b, readInstructionFlashRowLoop n bus r c data index word = Run.returned res b
      ∧ b.reads = fun _ => some [0x3C, 0x2B, 0x1A] := by
  induction n with
  | zero => intro bus r c data index word _ _ h; exact ⟨_, _, rfl, h⟩
  | succ n ih =>
    intro bus r c data index word hw hne h
    rw [readInstructionFlashRowLoop, steady_word bus r c word hw hne h]
    exact ih _ _ _ _ _ _ hw hne (by rw [afterSamples_eq]; exact h)

theorem steady_dumpLoop (n : Nat) : ∀ (bus : Bus) (row : Nat) (data : Int → Nat)
    (index : Nat → Int) (wordAddr : Nat → Nat) (file : List Nat),
    (∀ i, wordAddr i < 4294967296 ∧ wordAddr i ≠ 0x55FFFFFF) →
    bus.reads = (fun _ => some [0x3C, 0x2B, 0x1A]) →
    ∃ out b, dumpInstructionFlashLoop n bus row data index wordAddr file
      = Run.returned out b := by
  induction n with
  | zero => intro bus row data index wordAddr file _ _; exact ⟨_, _, rfl⟩
  | succ n ih =>
    intro bus row data index wordAddr file ha h
    obtain ⟨res, b, hr, hb⟩ := steady_rowLoop 32 bus row 0 data (index row) (wordAddr row)
      (ha row).1 (ha row).2 h
    rw [dumpInstructionFlashLoop, readInstructionFlashRow, hr]
    exact ih _ _ _ _ _ _ ha hb

/-- On a device that always answers the same three bytes, with 32-bit addresses for
the local `word`, the instruction-flash dump runs to the end and returns. -/
theorem steady_device_dump_returns (data : Int → Nat) (index : Nat → Int) :
    ∃ file b, dumpInstructionFlash steadyDevice true data index (fun _ => stackWord32)
      = Run.returned (some file) b := by
  obtain ⟨out, b, h⟩ := steady_dumpLoop 0x300 (enterBootRom steadyDevice) 0 data index
    (fun _ => stackWord32) []
    (fun _ => (by decide : stackWord32 < 4294967296 ∧ stackWord32 ≠ 0x55FFFFFF)) rfl
  exact ⟨out, exitBootRom b, by simp only [dumpInstructionFlash, if_true, h]⟩

end GasGauge
